import Mathlib

/-!
Shallow embedding of the KRUS quarterly-spreadsheet conversion script
(`file_convert.ipynb`, a plain Python/pandas script).  Strings are modelled
as Lean `String`s (lists of `Char`); pandas tables are modelled as lists of
output rows; Python regular-expression operations on the fixed patterns of
the script are modelled by hand-written structural matchers over `List Char`.
Python `\w` / `\b` word-character semantics is modelled over ASCII
alphanumerics, underscore and the Polish diacritic letters occurring in the
script's vocabulary; Python `\s` is modelled over ASCII whitespace.
-/

/-- ASCII whitespace, as matched by the script's `\s` / `str.strip()` on the
inputs in scope. -/
def isSpaceCh (c : Char) : Bool :=
  c == ' ' || c == '\t' || c == '\n' || c == '\r' || c == '\x0b' || c == '\x0c'

/-- The Polish diacritic letters (both cases) used by the script's vocabulary. -/
def polishLetter (c : Char) : Bool :=
  c == 'ą' || c == 'ć' || c == 'ę' || c == 'ł' || c == 'ń' || c == 'ó' ||
  c == 'ś' || c == 'ź' || c == 'ż' ||
  c == 'Ą' || c == 'Ć' || c == 'Ę' || c == 'Ł' || c == 'Ń' || c == 'Ó' ||
  c == 'Ś' || c == 'Ź' || c == 'Ż'

/-- Word character for `\b` boundaries: alphanumeric, underscore, or a Polish
diacritic letter. -/
def isWordChar (c : Char) : Bool :=
  c.isAlphanum || c == '_' || polishLetter c

/-- Case folding as used by `re.IGNORECASE` on the script's vocabulary:
ASCII letters plus the Polish diacritic capitals. -/
def lowerPL (c : Char) : Char :=
  if c == 'Ą' then 'ą' else if c == 'Ć' then 'ć' else if c == 'Ę' then 'ę'
  else if c == 'Ł' then 'ł' else if c == 'Ń' then 'ń' else if c == 'Ó' then 'ó'
  else if c == 'Ś' then 'ś' else if c == 'Ź' then 'ź' else if c == 'Ż' then 'ż'
  else c.toLower

/-- Numeric value of a decimal digit character. -/
def digitVal (c : Char) : Nat := c.toNat - 48

/-- `int()` of four digit characters. -/
def year4 (a b c d : Char) : Nat :=
  ((digitVal a * 10 + digitVal b) * 10 + digitVal c) * 10 + digitVal d

/-- Python `str.strip()`: drop whitespace from both ends. -/
def stripChars (l : List Char) : List Char :=
  ((l.dropWhile isSpaceCh).reverse.dropWhile isSpaceCh).reverse

/-- `str.strip()` at the `String` level. -/
def stripStr (s : String) : String := ⟨stripChars s.data⟩

/-- `re.search(r"(\d{4})", t)`: leftmost run of four decimal digits,
returned as a year; `none` when no such run exists. -/
def search4 : List Char → Option Nat
  | a :: b :: c :: d :: rest =>
    if a.isDigit && b.isDigit && c.isDigit && d.isDigit then some (year4 a b c d)
    else search4 (b :: c :: d :: rest)
  | _ => none

/-- `re.match(r"^(\d{4})", t)`: four digits at the very start. -/
def startsWith4Digits : List Char → Option Nat
  | a :: b :: c :: d :: _ =>
    if a.isDigit && b.isDigit && c.isDigit && d.isDigit then some (year4 a b c d)
    else none
  | _ => none

/-- Right-boundary `\b` after the year of `\b(\d{2})\.(\d{2})\.(\d{4})\b`:
end of text or a non-word character. -/
def boundaryOk : List Char → Bool
  | [] => true
  | x :: _ => !isWordChar x

/-- `re.search(r"\b(\d{2})\.(\d{2})\.(\d{4})\b", t)`: scan left to right,
tracking whether the previous character is a word character (for `\b`),
and return the year group of the first match. -/
def searchDMY (pw : Bool) : List Char → Option Nat
  | [] => none
  | a :: rest =>
    match rest with
    | b :: s1 :: c :: d :: s2 :: e :: f :: g :: h :: rest2 =>
      if !pw && a.isDigit && b.isDigit && s1 == '.' && c.isDigit && d.isDigit &&
         s2 == '.' && e.isDigit && f.isDigit && g.isDigit && h.isDigit &&
         boundaryOk rest2 then
        some (year4 e f g h)
      else searchDMY (isWordChar a) rest
    | _ => searchDMY (isWordChar a) rest

/-- `period_year(s)`: lenient year extraction of the script — strip, then try
the `DD.MM.YYYY` search, then four digits at the start, then any run of four
digits; `none` on blank input or when no four-digit run exists. -/
def period_year (s : String) : Option Nat :=
  let t := stripChars s.data
  if t.isEmpty then none
  else
    match searchDMY false t with
    | some y => some y
    | none =>
      match startsWith4Digits t with
      | some y => some y
      | none => search4 t

/-- `MONTHS_MAP` together with the month alternation of the Polish long-date
pattern, in the script's order: pairs of (lower-case month name, month
number). -/
def monthsTable : List (List Char × List Char) :=
  [("stycznia".data, "01".data), ("lutego".data, "02".data), ("marca".data, "03".data),
   ("kwietnia".data, "04".data), ("maja".data, "05".data), ("czerwca".data, "06".data),
   ("lipca".data, "07".data), ("sierpnia".data, "08".data), ("września".data, "09".data),
   ("wrzesnia".data, "09".data), ("października".data, "10".data),
   ("pazdziernika".data, "10".data), ("listopada".data, "11".data), ("grudnia".data, "12".data)]

/-- Case-insensitive comparison of the pattern word `p` against a prefix of
`l` (the pattern words are stored lower-case). -/
def matchesCI : List Char → List Char → Bool
  | [], _ => true
  | _ :: _, [] => false
  | p :: ps, c :: cs => (lowerPL c == p) && matchesCI ps cs

/-- Try the month alternation in order; on success return the month number
and the input with the month name consumed. -/
def tryMonthAux : List (List Char × List Char) → List Char → Option (List Char × List Char)
  | [], _ => none
  | (name, mm) :: rest, l =>
    if matchesCI name l then some (mm, l.drop name.length) else tryMonthAux rest l

/-- First month name of `MONTHS_MAP`-order matching at the head of `l`. -/
def tryMonth (l : List Char) : Option (List Char × List Char) := tryMonthAux monthsTable l

/-- Python `str.zfill(2)` on a 1–2 digit day. -/
def zfill2 : List Char → List Char
  | [c] => ['0', c]
  | l => l

/-- The part of the Polish long-date pattern after the day group:
`\s+(month)\s+(\d{4})\s*r?\.?,?`.  On success returns the replacement
`DD.MM.YYYY` and the unconsumed rest of the input. -/
def afterDay (day : List Char) (l : List Char) : Option (List Char × List Char) :=
  let w1 := l.takeWhile isSpaceCh
  let l1 := l.dropWhile isSpaceCh
  if w1.isEmpty then none
  else
    match tryMonth l1 with
    | none => none
    | some (mm, l2) =>
      let w2 := l2.takeWhile isSpaceCh
      let l3 := l2.dropWhile isSpaceCh
      if w2.isEmpty then none
      else
        match l3 with
        | y1 :: y2 :: y3 :: y4 :: l4 =>
          if y1.isDigit && y2.isDigit && y3.isDigit && y4.isDigit then
            let l5 := l4.dropWhile isSpaceCh
            let l6 := match l5 with
                      | r :: t => if lowerPL r == 'r' then t else l5
                      | [] => l5
            let l7 := match l6 with
                      | d :: t => if d == '.' then t else l6
                      | [] => l6
            let l8 := match l7 with
                      | k :: t => if k == ',' then t else l7
                      | [] => l7
            some (zfill2 day ++ '.' :: mm ++ '.' :: [y1, y2, y3, y4], l8)
          else none
        | _ => none

/-- One attempt of the Polish long-date pattern
`\b(\d{1,2})\s+(month)\s+(\d{4})\s*r?\.?,?` at the head of `l`; `pw` says
whether the previous character is a word character (`\b` fails when it is).
The greedy `\d{1,2}` tries two digits first, then backtracks to one. -/
def matchPolishDate (pw : Bool) (l : List Char) : Option (List Char × List Char) :=
  if pw then none
  else
    match l with
    | [] => none
    | c1 :: rest1 =>
      if c1.isDigit then
        match rest1 with
        | c2 :: rest2 =>
          if c2.isDigit then
            match afterDay [c1, c2] rest2 with
            | some r => some r
            | none => afterDay [c1] rest1
          else afterDay [c1] rest1
        | [] => afterDay [c1] rest1
      else none

/-- The `\b`-state at which `re.sub` resumes scanning after a match on `l`
that leaves `rest` unconsumed: `\b` is evaluated against the original
string, whose character before the resumption position is the last
character the match consumed (`pw` is only the unreachable empty-match
default). -/
def resumeW (pw : Bool) (l rest : List Char) : Bool :=
  match (l.take (l.length - rest.length)).getLast? with
  | some ch => isWordChar ch
  | none => pw

/-- Fuel-indexed left-to-right scan of `re.sub` for the Polish long-date
pattern: at each position try a match; on success emit the replacement and
continue after the consumed text (with the `\b`-state of the last consumed
character), else copy one character. -/
def subFuel : Nat → Bool → List Char → List Char
  | 0, _, l => l
  | n + 1, pw, l =>
    match l with
    | [] => []
    | c :: cs =>
      match matchPolishDate pw (c :: cs) with
      | some (rep, rest) => rep ++ subFuel n (resumeW pw (c :: cs) rest) rest
      | none => c :: subFuel n (isWordChar c) cs

/-- The scan with always-sufficient fuel (each step consumes at least one
character). -/
def subRun (pw : Bool) (l : List Char) : List Char := subFuel (l.length + 1) pw l

/-- `normalize_polish_dates(text)`: rewrite every occurrence of the Polish
long-date pattern to `DD.MM.YYYY`. -/
def normalize_polish_dates (s : String) : String := ⟨subRun false s.data⟩

/-- `PERIOD_Q_RE`: four digits, an optional '-' or '/' separator, `q`
(case-insensitive), a quarter digit 1–4, anchored on the whole input. -/
def matchQ : List Char → Bool
  | [a, b, c, d, q, n] =>
    a.isDigit && b.isDigit && c.isDigit && d.isDigit && lowerPL q == 'q' &&
    (n == '1' || n == '2' || n == '3' || n == '4')
  | [a, b, c, d, s, q, n] =>
    a.isDigit && b.isDigit && c.isDigit && d.isDigit && (s == '-' || s == '/') &&
    lowerPL q == 'q' && (n == '1' || n == '2' || n == '3' || n == '4')
  | _ => false

/-- `PERIOD_ISO_RE`: four digits, a '-' or '/' separator, two digits, and
optionally the same separator (backreference) and two more digits,
anchored on the whole input. -/
def matchISO : List Char → Bool
  | [a, b, c, d, s1, m1, m2] =>
    a.isDigit && b.isDigit && c.isDigit && d.isDigit && (s1 == '-' || s1 == '/') &&
    m1.isDigit && m2.isDigit
  | [a, b, c, d, s1, m1, m2, s2, e1, e2] =>
    a.isDigit && b.isDigit && c.isDigit && d.isDigit && (s1 == '-' || s1 == '/') &&
    m1.isDigit && m2.isDigit && s2 == s1 && e1.isDigit && e2.isDigit
  | _ => false

/-- `PERIOD_PL_RE`: `^\d{2}\.\d{2}\.\d{4}$`. -/
def matchPL10 : List Char → Bool
  | [a, b, p1, c, d, p2, e, f, g, h] =>
    a.isDigit && b.isDigit && p1 == '.' && c.isDigit && d.isDigit && p2 == '.' &&
    e.isDigit && f.isDigit && g.isDigit && h.isDigit
  | _ => false

/-- `YEAR_ONLY_RE`: `^\d{4}$`. -/
def matchY4 : List Char → Bool
  | [a, b, c, d] => a.isDigit && b.isDigit && c.isDigit && d.isDigit
  | _ => false

/-- `is_period_token(s)`: strip, then quarter form, ISO form, Polish date
form (after running the Polish-date normalizer), or bare year. -/
def is_period_token (s : String) : Bool :=
  let t : String := stripStr s
  matchQ t.data || matchISO t.data || matchPL10 (normalize_polish_dates t).data ||
  matchY4 t.data

/-- Modelled from the spec's testable property (the claim side of C8):
a string matching `^\d{4}-Q[1-4]$` or `^\d{4}Q[1-4]$` in any letter case. -/
def specQuarterForm : List Char → Bool
  | [a, b, c, d, q, n] =>
    a.isDigit && b.isDigit && c.isDigit && d.isDigit && (q == 'q' || q == 'Q') &&
    (n == '1' || n == '2' || n == '3' || n == '4')
  | [a, b, c, d, s, q, n] =>
    a.isDigit && b.isDigit && c.isDigit && d.isDigit && s == '-' &&
    (q == 'q' || q == 'Q') && (n == '1' || n == '2' || n == '3' || n == '4')
  | _ => false

/-- A pandas cell as seen by `clean_value`: missing (`NaN`/`NA`), a Python
float (with its `is_integer()` flag, `int()` value and `str()` text), or a
string. -/
inductive CellValue where
  | na : CellValue
  | floatCell (intPart : Int) (isInt : Bool) (txt : String) : CellValue
  | strCell (s : String) : CellValue
deriving DecidableEq

/-- Python `s.replace(".0", "")`: remove every (non-overlapping, left to
right) occurrence of the two-character substring `".0"`. -/
def removeDotZero : List Char → List Char
  | [] => []
  | [c] => [c]
  | c :: c2 :: rest =>
    if c == '.' && c2 == '0' then removeDotZero rest
    else c :: removeDotZero (c2 :: rest)

/-- Python `s.endswith(".0")`. -/
def endsDotZero (l : List Char) : Bool :=
  match l.reverse with
  | '0' :: '.' :: _ => true
  | _ => false

/-- Python `str.isdigit()` on the inputs in scope: non-empty and all
decimal digits. -/
def pyIsDigit (l : List Char) : Bool := !l.isEmpty && l.all Char.isDigit

/-- The string branch of `clean_value`: drop a spurious `".0"` suffix from a
digit string (via replace-all of `".0"`), otherwise keep the string. -/
def cleanNumStr (s : String) : String :=
  if endsDotZero s.data && pyIsDigit (removeDotZero s.data) then ⟨removeDotZero s.data⟩
  else s

/-- `clean_value(v)`: missing becomes `""`; an integer-valued float becomes
`str(int(v))`; any other value is rendered as text and de-suffixed of a
spurious `".0"`. -/
def clean_value : CellValue → String
  | .na => ""
  | .floatCell i true _ => toString i
  | .floatCell _ false txt => cleanNumStr txt
  | .strCell s => cleanNumStr s

/-- One output record of the pipeline (all fields are text). -/
structure Row where
  dataset : String
  measure : String
  value : String
  region : String
  period : String
  typ : String
deriving DecidableEq

/-- `yrs.isin([2024, 2025])` on an extracted year. -/
def isKeptYear : Option Nat → Bool
  | some y => y == 2024 || y == 2025
  | none => false

/-- The per-file year filter: `long.loc[yrs.isin([2024, 2025])]`. -/
def keepYearFilter (rows : List Row) : List Row :=
  rows.filter fun r => isKeptYear (period_year r.period)

/-- The post-merge categorical fill of one field:
`fillna("").astype(str).str.strip()` then empty becomes the default. -/
def fillCat (dflt : String) (s : String) : String :=
  let t := stripStr s
  if t = "" then dflt else t

/-- The post-merge fill pass on the master table: `typ`/`region` default to
`"ogółem"`, `period` defaults to `"2025"`. -/
def masterFill (rows : List Row) : List Row :=
  rows.map fun r =>
    { r with typ := fillCat "ogółem" r.typ,
             region := fillCat "ogółem" r.region,
             period := fillCat "2025" r.period }

/-- The final output table: per-file kept rows, concatenated in order, then
the categorical fill pass. -/
def master_output (files : List (List Row)) : List Row :=
  masterFill (files.map keepYearFilter).flatten

/-- `parts`: the per-file results appended by the main loop — one entry per
file that processed without an exception (possibly an empty row list). -/
def collectParts (results : List (Except String (List Row))) : List (List Row) :=
  results.filterMap fun r =>
    match r with
    | .ok rows => some rows
    | .error _ => none

/-- `if parts:` — the output CSV is written iff `parts` is non-empty. -/
def outputWritten (results : List (Except String (List Row))) : Bool :=
  !(collectParts results).isEmpty

/-- All rows of the merged master table, in file order. -/
def master_rows (results : List (Except String (List Row))) : List Row :=
  (collectParts results).flatten

/-- `id_vars`: the identifier columns in the script's order
(region, period, typ), keeping only the ones found. -/
def id_vars_of (region_col period_col typ_col : Option String) : List String :=
  region_col.toList ++ period_col.toList ++ typ_col.toList

/-- `soft_id`: the reduced identifier set `[region_col, typ_col]` of the
degenerate-table fallback. -/
def soft_id_of (region_col typ_col : Option String) : List String :=
  region_col.toList ++ typ_col.toList

/-- `value_vars` with the script's two-stage fallback: all columns outside
`id_vars`; if none, all columns outside `soft_id`; if still none, all
columns. -/
def value_vars_of (cols : List String) (region_col period_col typ_col : Option String) :
    List String :=
  let iv := id_vars_of region_col period_col typ_col
  let vv := cols.filter fun c => !(iv.contains c)
  if vv.isEmpty then
    let soft := soft_id_of region_col typ_col
    let vv2 := cols.filter fun c => !(soft.contains c)
    if vv2.isEmpty then cols else vv2
  else vv

/-- `yrs_all[yrs_all.isin([2024, 2025])]`: the qualifying extracted years of
a file's rows, in row order. -/
def qualifyingYears (rows : List Row) : List Nat :=
  ((rows.map fun r => period_year r.period).filterMap id).filter fun y =>
    y == 2024 || y == 2025

/-- pandas `Series.mode()` on a series whose values lie in `{2024, 2025}`:
the values of maximal multiplicity, in ascending order (empty for an empty
series). -/
def seriesMode2425 (ys : List Nat) : List Nat :=
  let c24 := ys.count 2024
  let c25 := ys.count 2025
  if c24 == 0 && c25 == 0 then []
  else if c24 > c25 then [2024]
  else if c25 > c24 then [2025]
  else [2024, 2025]

/-- `default_year`: `int(dominant.iloc[0])` when the mode series is
non-empty, else 2025. -/
def default_year (rows : List Row) : Nat :=
  match seriesMode2425 (qualifyingYears rows) with
  | [] => 2025
  | d :: _ => d

/-- Backfill step 3: every row whose `period` is still empty receives the
default year as text. -/
def fillEmptyPeriods (rows : List Row) : List Row :=
  rows.map fun r =>
    if r.period = "" then { r with period := toString (default_year rows) } else r

/-- The spec's wording of the default year (the claim side of C6): the most
frequent year among rows whose extracted year is 2024 or 2025, ties broken
by the lowest year, 2025 when no row qualifies. -/
def specDefaultYear (rows : List Row) : Nat :=
  let c24 := (rows.filter fun r => period_year r.period == some 2024).length
  let c25 := (rows.filter fun r => period_year r.period == some 2025).length
  if c24 == 0 && c25 == 0 then 2025
  else if c25 ≤ c24 then 2024
  else 2025

/-- A sample kept row used to instantiate theorems with hypotheses. -/
def sampleRow : Row :=
  { dataset := "d", measure := "m", value := "1",
    region := "Polska", period := "2025", typ := "ogółem" }

/-- The `\b`-state at a scan position reached after the characters `pre`:
the word-character flag of the last character of `pre`, or the initial flag
`pw` when `pre` is empty. -/
def prevW (pre : List Char) (pw : Bool) : Bool :=
  match pre.getLast? with
  | some c => isWordChar c
  | none => pw

/-- Shape of every replacement string produced by the Polish long-date
rewrite: `DD.MM.YYYY` with all eight positions decimal digits. -/
def RepShape (rep : List Char) : Prop :=
  ∃ d1 d2 m1 m2 y1 y2 y3 y4 : Char,
    rep = [d1, d2, '.', m1, m2, '.', y1, y2, y3, y4] ∧
    d1.isDigit = true ∧ d2.isDigit = true ∧ m1.isDigit = true ∧ m2.isDigit = true ∧
    y1.isDigit = true ∧ y2.isDigit = true ∧ y3.isDigit = true ∧ y4.isDigit = true

/-- A successful core parse of the Polish long-date pattern at the head of
`l`, consuming exactly `k` characters up to and including the year (the
trailing optional junk is not part of the core). -/
def CoreAt (l : List Char) (k : Nat) : Prop :=
  ∃ day w1 mon w2 ys tail name mm,
    l = day ++ w1 ++ mon ++ w2 ++ ys ++ tail ∧
    k = day.length + w1.length + mon.length + w2.length + 4 ∧
    (day.length = 1 ∨ day.length = 2) ∧ day.all Char.isDigit = true ∧
    w1 ≠ [] ∧ w1.all isSpaceCh = true ∧
    (name, mm) ∈ monthsTable ∧ matchesCI name mon = true ∧ mon.length = name.length ∧
    w2 ≠ [] ∧ w2.all isSpaceCh = true ∧
    ys.length = 4 ∧ ys.all Char.isDigit = true

/-! ### Lemmas about the year extractor and stripping -/

lemma isSpaceCh_not_digit {c : Char} (h : isSpaceCh c = true) : c.isDigit = false := by
  simp only [isSpaceCh, Bool.or_eq_true, beq_iff_eq] at h
  rcases h with ((((rfl | rfl) | rfl) | rfl) | rfl) | rfl <;> decide

lemma search4_none_cons (x : Char) (xs : List Char) (h : search4 (x :: xs) = none) :
    search4 xs = none := by
  match xs with
  | [] => rfl
  | [b] => rfl
  | [b, c] => rfl
  | b :: c :: d :: rest =>
    simp only [search4] at h
    split at h
    · exact absurd h (by simp)
    · exact h

lemma search4_none_imp (l : List Char) (h : search4 l = none) :
    ∀ a b c d : Char, (a.isDigit && b.isDigit && c.isDigit && d.isDigit) = true →
      ¬ ([a, b, c, d] <:+: l) := by
  induction l with
  | nil =>
    intro a b c d _ hinf
    exact absurd (List.infix_nil.mp hinf) (by simp)
  | cons x xs ih =>
    intro a b c d hd hinf
    rcases List.infix_cons_iff.mp hinf with hpre | htail
    · obtain ⟨t, ht⟩ := hpre
      obtain ⟨rfl, hxs⟩ : a = x ∧ xs = b :: c :: d :: t := by
        have := ht.symm
        simp only [List.cons_append, List.nil_append, List.cons.injEq] at this
        tauto
      subst hxs
      simp only [search4, hd, if_true] at h
      exact absurd h (by simp)
    · exact ih (search4_none_cons _ _ h) a b c d hd htail

lemma strip_decomp (l : List Char) :
    l = l.takeWhile isSpaceCh ++ stripChars l ++
        ((l.dropWhile isSpaceCh).reverse.takeWhile isSpaceCh).reverse := by
  conv_lhs => rw [← List.takeWhile_append_dropWhile isSpaceCh l]
  rw [List.append_assoc]
  congr 1
  conv_lhs => rw [← List.reverse_reverse (l.dropWhile isSpaceCh),
    ← List.takeWhile_append_dropWhile isSpaceCh (l.dropWhile isSpaceCh).reverse,
    List.reverse_append]
  rfl

lemma infix_drop_spaces_left (w T s : List Char)
    (hw : ∀ c ∈ w, isSpaceCh c = true) (hs : ∀ c ∈ s, c.isDigit = true)
    (hne : s ≠ []) (hinf : s <:+: w ++ T) : s <:+: T := by
  induction w with
  | nil => simpa using hinf
  | cons c w' ih =>
    rcases List.infix_cons_iff.mp hinf with hpre | htail
    · match s, hne with
      | x :: s', _ =>
        have hx : x = c := (List.cons_prefix_cons.mp hpre).1
        have : x.isDigit = true := hs x (by simp)
        rw [hx] at this
        rw [isSpaceCh_not_digit (hw c (by simp))] at this
        exact absurd this (by simp)
    · exact ih (fun c hc => hw c (by simp [hc])) htail

lemma infix_drop_spaces_right (w T s : List Char)
    (hw : ∀ c ∈ w, isSpaceCh c = true) (hs : ∀ c ∈ s, c.isDigit = true)
    (hne : s ≠ []) (hinf : s <:+: T ++ w) : s <:+: T := by
  have h1 : s.reverse <:+: w.reverse ++ T.reverse := by
    rw [← List.reverse_append]
    exact List.reverse_infix.mpr hinf
  have h2 : s.reverse <:+: T.reverse :=
    infix_drop_spaces_left w.reverse T.reverse s.reverse
      (fun c hc => hw c (List.mem_reverse.mp hc))
      (fun c hc => hs c (List.mem_reverse.mp hc))
      (by simpa using hne) h1
  exact List.reverse_infix.mp h2

lemma infix_stripChars (l s : List Char)
    (hs : ∀ c ∈ s, c.isDigit = true) (hne : s ≠ []) (hinf : s <:+: l) :
    s <:+: stripChars l := by
  rw [strip_decomp l, List.append_assoc] at hinf
  have h1 := infix_drop_spaces_left _ _ s
    (fun c hc => List.mem_takeWhile_imp hc) hs hne hinf
  exact infix_drop_spaces_right _ _ s
    (fun c hc => List.mem_takeWhile_imp (List.mem_reverse.mp hc)) hs hne h1

lemma period_year_none_search4 (s : String) (h : period_year s = none) :
    search4 (stripChars s.data) = none := by
  simp only [period_year] at h
  split at h
  · next hemp => rw [List.isEmpty_iff.mp hemp]; rfl
  · split at h
    · exact absurd h (by simp)
    · split at h
      · exact absurd h (by simp)
      · exact h

/-- C7: the lenient year extractor tries, in order, a `DD.MM.YYYY` substring,
four digits at the start, then the first run of four digits anywhere (this
order is the definition of `period_year`); it yields 2025 on `"2025-Q1"`,
`"31.03.2025"` and `"jakiś 2025 tekst"`, null on `"brak danych"`, and it
yields null only when the text contains no run of four digits. -/
theorem period_year_extraction :
    period_year "2025-Q1" = some 2025 ∧
    period_year "31.03.2025" = some 2025 ∧
    period_year "jakiś 2025 tekst" = some 2025 ∧
    period_year "brak danych" = none ∧
    (∀ s : String, period_year s = none →
      ∀ a b c d : Char, (a.isDigit && b.isDigit && c.isDigit && d.isDigit) = true →
        ¬ ([a, b, c, d] <:+: s.data)) := by
  refine ⟨by decide, by decide, by decide, by decide, ?_⟩
  intro s h a b c d hd hinf
  have h4 : search4 (stripChars s.data) = none := period_year_none_search4 s h
  have hdig : ∀ c' ∈ [a, b, c, d], c'.isDigit = true := by
    intro c' hc'
    simp only [List.mem_cons, List.not_mem_nil, or_false] at hc'
    simp only [Bool.and_eq_true] at hd
    rcases hc' with rfl | rfl | rfl | rfl <;> tauto
  exact search4_none_imp _ h4 a b c d hd
    (infix_stripChars _ _ hdig (by simp) hinf)

/-- Witness for C7 at a concrete input: `"brak danych"` extracts no year,
hence contains no run of four digits. -/
theorem period_year_extraction_witness :
    ¬ (['2', '0', '2', '5'] <:+: ("brak danych".data)) :=
  period_year_extraction.2.2.2.2 "brak danych" (by decide) '2' '0' '2' '5' (by decide)

lemma specQuarterForm_matchQ (l : List Char) (h : specQuarterForm l = true) :
    matchQ l = true := by
  match l with
  | [] => simp [specQuarterForm] at h
  | [a] => simp [specQuarterForm] at h
  | [a, b] => simp [specQuarterForm] at h
  | [a, b, c] => simp [specQuarterForm] at h
  | [a, b, c, d] => simp [specQuarterForm] at h
  | [a, b, c, d, e] => simp [specQuarterForm] at h
  | [a, b, c, d, q, n] =>
    simp only [specQuarterForm, Bool.and_eq_true, Bool.or_eq_true, beq_iff_eq] at h
    obtain ⟨⟨⟨⟨⟨ha, hb⟩, hc⟩, hd⟩, hq⟩, hn⟩ := h
    simp only [matchQ, Bool.and_eq_true, Bool.or_eq_true, beq_iff_eq]
    exact ⟨⟨⟨⟨⟨ha, hb⟩, hc⟩, hd⟩, by rcases hq with rfl | rfl <;> decide⟩, hn⟩
  | [a, b, c, d, s, q, n] =>
    simp only [specQuarterForm, Bool.and_eq_true, Bool.or_eq_true, beq_iff_eq] at h
    obtain ⟨⟨⟨⟨⟨⟨ha, hb⟩, hc⟩, hd⟩, hs⟩, hq⟩, hn⟩ := h
    simp only [matchQ, Bool.and_eq_true, Bool.or_eq_true, beq_iff_eq]
    exact ⟨⟨⟨⟨⟨⟨ha, hb⟩, hc⟩, hd⟩, Or.inl hs⟩,
      by rcases hq with rfl | rfl <;> decide⟩, hn⟩
  | a :: b :: c :: d :: e :: f :: g :: h8 :: rest =>
    simp [specQuarterForm] at h

/-- C8: every string whose stripped text matches the quarter regular
expressions of the spec is accepted by `is_period_token`. -/
theorem quarter_form_is_period_token (s : String)
    (h : specQuarterForm (stripChars s.data) = true) : is_period_token s = true := by
  have hq : matchQ (stripStr s).data = true := specQuarterForm_matchQ _ h
  simp only [is_period_token, hq, Bool.true_or]

/-- Witness for C8 at the concrete input `"2025-Q1"`. -/
theorem quarter_form_is_period_token_witness : is_period_token "2025-Q1" = true :=
  quarter_form_is_period_token "2025-Q1" (by decide)

lemma getLast?_dropWhile {α : Type} {p : α → Bool} :
    ∀ l : List α, l.dropWhile p ≠ [] → (l.dropWhile p).getLast? = l.getLast? := by
  intro l
  induction l with
  | nil => simp
  | cons c cs ih =>
    intro hne
    by_cases hc : p c
    · rw [List.dropWhile_cons, if_pos hc] at hne ⊢
      have hcs : cs ≠ [] := by
        rintro rfl
        exact hne (by simp [List.dropWhile])
      rw [ih hne]
      match cs, hcs with
      | d :: ds, _ => rw [List.getLast?_cons_cons]
    · rw [List.dropWhile_cons, if_neg hc]

lemma dropWhile_eq_self_head {α : Type} {p : α → Bool} {l : List α}
    (h : ∀ x, l.head? = some x → p x = false) : l.dropWhile p = l := by
  cases l with
  | nil => rfl
  | cons c cs =>
    rw [List.dropWhile_cons, if_neg]
    simp [h c rfl]

lemma stripChars_idem (l : List Char) : stripChars (stripChars l) = stripChars l := by
  simp only [stripChars]
  set A := l.dropWhile isSpaceCh with hA
  set D := A.reverse.dropWhile isSpaceCh with hD
  have h1 : D.reverse.dropWhile isSpaceCh = D.reverse := by
    apply dropWhile_eq_self_head
    intro x hx
    rcases hDe : D with _ | ⟨d0, D'⟩
    · rw [hDe] at hx; simp at hx
    · have hne : D ≠ [] := by rw [hDe]; simp
      have h2 : D.reverse.head? = D.getLast? := List.head?_reverse D
      have h3 : D.getLast? = A.reverse.getLast? := getLast?_dropWhile A.reverse hne
      have h4 : A.reverse.getLast? = A.head? := List.getLast?_reverse A
      have h5 : A.head? = some x := by rw [← h4, ← h3, ← h2, hx]
      have := List.head?_dropWhile_not isSpaceCh l
      rw [← hA] at this
      rw [h5] at this
      exact this
  rw [h1, List.reverse_reverse, List.dropWhile_idempotent]

lemma period_year_stripStr (s : String) : period_year (stripStr s) = period_year s := by
  simp only [period_year, stripStr]
  rw [stripChars_idem]

/-- C1: the per-file filter keeps a row iff the lenient year extractor maps
its `period` to 2024 or 2025; and every row of the final output table
(concatenation of the per-file kept rows followed by the categorical fill
pass) has a non-empty `period` whose extracted year is 2024 or 2025. -/
theorem output_period_invariant (files : List (List Row)) (r : Row) :
    (∀ (rows : List Row) (r' : Row), r' ∈ keepYearFilter rows ↔
        r' ∈ rows ∧ (period_year r'.period = some 2024 ∨ period_year r'.period = some 2025)) ∧
    (r ∈ master_output files →
        r.period ≠ "" ∧ (period_year r.period = some 2024 ∨ period_year r.period = some 2025)) := by
  have hkeep : ∀ p : String, isKeptYear (period_year p) = true ↔
      (period_year p = some 2024 ∨ period_year p = some 2025) := by
    intro p
    cases h : period_year p with
    | none => simp [isKeptYear]
    | some y => simp [isKeptYear]
  constructor
  · intro rows r'
    simp only [keepYearFilter, List.mem_filter]
    exact and_congr_right fun _ => hkeep r'.period
  · intro hr
    simp only [master_output, masterFill, List.mem_map] at hr
    obtain ⟨r0, hr0, rfl⟩ := hr
    simp only [List.mem_flatten, List.mem_map] at hr0
    obtain ⟨rows, ⟨file, hfile, rfl⟩, hr0⟩ := hr0
    simp only [keepYearFilter, List.mem_filter] at hr0
    have hy : period_year r0.period = some 2024 ∨ period_year r0.period = some 2025 :=
      (hkeep r0.period).mp hr0.2
    have hne : stripStr r0.period ≠ "" := by
      intro hemp
      have hdat : stripChars r0.period.data = [] := congrArg String.data hemp
      have hnone : period_year r0.period = none := by simp [period_year, hdat]
      rcases hy with h1 | h1 <;> rw [h1] at hnone <;> exact absurd hnone (by simp)
    have hfill : fillCat "2025" r0.period = stripStr r0.period := by
      simp only [fillCat]
      rw [if_neg hne]
    constructor
    · show fillCat "2025" r0.period ≠ ""
      rw [hfill]; exact hne
    · show period_year (fillCat "2025" r0.period) = some 2024 ∨
          period_year (fillCat "2025" r0.period) = some 2025
      rw [hfill, period_year_stripStr]
      exact hy

/-- Witness for C1: the sample row survives the whole pipeline on a
one-file, one-row input and satisfies the invariant. -/
theorem output_period_invariant_witness :
    sampleRow.period ≠ "" ∧
    (period_year sampleRow.period = some 2024 ∨ period_year sampleRow.period = some 2025) :=
  (output_period_invariant [[sampleRow]] sampleRow).2 (by decide)

lemma collectParts_cons_ok {rows : List Row} {l : List (Except String (List Row))} :
    collectParts (Except.ok rows :: l) = rows :: collectParts l := rfl

lemma collectParts_cons_error {e : String} {l : List (Except String (List Row))} :
    collectParts (Except.error e :: l) = collectParts l := rfl

lemma master_rows_cons_ok {rows : List Row} {l : List (Except String (List Row))} :
    master_rows (Except.ok rows :: l) = rows ++ master_rows l := by
  simp [master_rows, collectParts_cons_ok]

lemma master_rows_cons_error {e : String} {l : List (Except String (List Row))} :
    master_rows (Except.error e :: l) = master_rows l := by
  simp [master_rows, collectParts_cons_error]

/-- C2, counterexample: one input file that processes successfully but keeps
zero rows.  The loop still appends its (empty) part, `parts` is non-empty,
and the output file is written — refuting "written iff at least one input
file produced (kept) rows; when the overall result is empty, no output file
is written". -/
theorem output_written_counterexample :
    ¬ ((outputWritten [Except.ok ([] : List Row)] = true) ↔
       (∃ part ∈ collectParts [Except.ok ([] : List Row)], part ≠ [])) := by
  decide

/-- C2, amended: the output CSV is written iff at least one input file was
processed without an exception — even when every such file kept zero rows
(the file is then written with only its header). -/
theorem output_written_iff_some_success (results : List (Except String (List Row))) :
    outputWritten results = true ↔ ∃ rows, Except.ok rows ∈ results := by
  induction results with
  | nil => simp [outputWritten, collectParts]
  | cons r rest ih =>
    cases r with
    | ok rows =>
      simp only [outputWritten, collectParts_cons_ok, List.isEmpty_cons, Bool.not_false]
      constructor
      · intro _
        exact ⟨rows, List.mem_cons_self _ _⟩
      · intro _
        trivial
    | error e =>
      rw [show outputWritten (Except.error e :: rest) = outputWritten rest from by
        simp [outputWritten, collectParts_cons_error]]
      rw [ih]
      constructor
      · rintro ⟨rows, hmem⟩
        exact ⟨rows, List.mem_cons_of_mem _ hmem⟩
      · rintro ⟨rows, hmem⟩
        rcases List.mem_cons.mp hmem with heq | hmem'
        · exact absurd heq (by simp)
        · exact ⟨rows, hmem'⟩

/-- C9: a file whose processing raises (modelled as an `Except.error`
result) contributes nothing to the merged output: removing it from the run
leaves the collected parts and the master rows unchanged, so the remaining
files are processed as if it were absent. -/
theorem failed_file_contributes_nothing (results : List (Except String (List Row)))
    (i : Nat) (h : i < results.length)
    (herr : ∃ e, results.get ⟨i, h⟩ = Except.error e) :
    master_rows results = master_rows (results.eraseIdx i) ∧
    collectParts results = collectParts (results.eraseIdx i) := by
  induction results generalizing i with
  | nil => simp at h
  | cons r rest ih =>
    cases i with
    | zero =>
      obtain ⟨e, he⟩ := herr
      simp only [List.get] at he
      subst he
      rw [List.eraseIdx_cons_zero]
      exact ⟨master_rows_cons_error, collectParts_cons_error⟩
    | succ j =>
      have hj : j < rest.length := by simpa using h
      have hrec := ih j hj (by simpa using herr)
      rw [List.eraseIdx_cons_succ]
      cases r with
      | ok rows =>
        rw [master_rows_cons_ok, master_rows_cons_ok, collectParts_cons_ok,
          collectParts_cons_ok, hrec.1, hrec.2]
        exact ⟨rfl, rfl⟩
      | error e =>
        rw [master_rows_cons_error, master_rows_cons_error, collectParts_cons_error,
          collectParts_cons_error, hrec.1, hrec.2]
        exact ⟨rfl, rfl⟩

/-- Witness for C9: dropping a failed file from a concrete two-file run
leaves the output unchanged. -/
theorem failed_file_contributes_nothing_witness :
    master_rows [Except.error "boom", Except.ok [sampleRow]] =
      master_rows ([Except.error "boom", Except.ok [sampleRow]].eraseIdx 0) :=
  (failed_file_contributes_nothing [Except.error "boom", Except.ok [sampleRow]] 0
    (by decide) ⟨"boom", rfl⟩).1

/-- C3: when the id/value partition leaves zero value columns, the reshape
identifier set is retried as `soft_id = [region, typ]` — exactly the id set
with the period column removed — and if that still leaves zero value
columns, every column becomes a value column. -/
theorem degenerate_value_vars (cols : List String) (region_col period_col typ_col : Option String)
    (h : (cols.filter fun c => !((id_vars_of region_col period_col typ_col).contains c)).isEmpty
          = true) :
    value_vars_of cols region_col period_col typ_col =
      (if (cols.filter fun c => !((soft_id_of region_col typ_col).contains c)).isEmpty = true
       then cols
       else cols.filter fun c => !((soft_id_of region_col typ_col).contains c)) ∧
    soft_id_of region_col typ_col = id_vars_of region_col none typ_col := by
  constructor
  · simp only [value_vars_of, h, if_true]
  · simp [soft_id_of, id_vars_of]

/-- Witness for C3: a table whose only column is the period column — the
first partition is empty and the fallback frees the column as a value
column. -/
theorem degenerate_value_vars_witness :
    value_vars_of ["Okres"] none (some "Okres") none =
      (if (["Okres"].filter fun c => !((soft_id_of none none).contains c)).isEmpty = true
       then ["Okres"]
       else ["Okres"].filter fun c => !((soft_id_of none none).contains c)) ∧
    soft_id_of none none = id_vars_of none none none :=
  degenerate_value_vars ["Okres"] none (some "Okres") none (by decide)

lemma count_qualifying (rows : List Row) (y : Nat) (hy : (y == 2024 || y == 2025) = true) :
    (qualifyingYears rows).count y =
      (rows.filter fun r => period_year r.period == some y).length := by
  simp only [qualifyingYears]
  rw [List.count_filter (p := fun z => z == 2024 || z == 2025) (a := y) hy,
    List.filterMap_map]
  rw [show (id ∘ fun r : Row => period_year r.period) =
        fun r : Row => period_year r.period from rfl]
  rw [List.count_filterMap, List.countP_eq_length_filter]

/-- C6: the default year is the most frequent year (pandas mode, which sorts
ties ascending, so ties resolve to the lowest year) among rows whose
extracted year is 2024 or 2025, and 2025 when no row qualifies; and the
backfill rewrites exactly the rows with empty `period` to that default year
as text. -/
theorem default_year_mode (rows : List Row) :
    default_year rows = specDefaultYear rows ∧
    fillEmptyPeriods rows = (rows.map fun r =>
      if r.period = "" then { r with period := toString (specDefaultYear rows) } else r) := by
  have h24 := count_qualifying rows 2024 (by decide)
  have h25 := count_qualifying rows 2025 (by decide)
  have hmain : default_year rows = specDefaultYear rows := by
    simp only [default_year, seriesMode2425, specDefaultYear, h24, h25]
    set n24 := (rows.filter fun r => period_year r.period == some 2024).length with hn24
    set n25 := (rows.filter fun r => period_year r.period == some 2025).length with hn25
    by_cases hz : (n24 == 0 && n25 == 0) = true
    · rw [if_pos hz, if_pos hz]
    · rw [if_neg hz, if_neg hz]
      by_cases hgt : n24 > n25
      · rw [if_pos hgt, if_pos (by omega : n25 ≤ n24)]
      · rw [if_neg hgt]
        by_cases hgt2 : n25 > n24
        · rw [if_pos hgt2, if_neg (by omega : ¬ n25 ≤ n24)]
        · rw [if_neg hgt2, if_pos (by omega : n25 ≤ n24)]
  exact ⟨hmain, by simp only [fillEmptyPeriods, hmain]⟩

lemma removeDotZero_cons_digit {c : Char} (hc : c.isDigit = true) (l : List Char) :
    removeDotZero (c :: l) = c :: removeDotZero l := by
  cases l with
  | nil => rfl
  | cons c2 rest =>
    have hcdot : (c == '.') = false := by
      by_contra hh
      simp only [Bool.not_eq_false, beq_iff_eq] at hh
      subst hh
      exact absurd hc (by decide)
    simp [removeDotZero, hcdot]

lemma removeDotZero_digits (l : List Char) (hall : l.all Char.isDigit = true) :
    removeDotZero (l ++ ['.', '0']) = l := by
  induction l with
  | nil => rfl
  | cons c cs ih =>
    simp only [List.all_cons, Bool.and_eq_true] at hall
    rw [List.cons_append, removeDotZero_cons_digit hall.1, ih hall.2]

/-- C10: `clean_value` renders a missing cell as the empty string, an
integer-valued float as its bare integer digits, and a digit string with a
`".0"` suffix as the bare digits with the suffix removed. -/
theorem clean_value_rendering :
    clean_value CellValue.na = "" ∧
    (∀ (i : Int) (txt : String), clean_value (CellValue.floatCell i true txt) = toString i) ∧
    (∀ s : String, s.data ≠ [] → s.data.all Char.isDigit = true →
      clean_value (CellValue.strCell (s ++ ".0")) = s) := by
  refine ⟨rfl, fun i txt => rfl, ?_⟩
  intro s hne hdig
  show cleanNumStr (s ++ ".0") = s
  have hdata : (s ++ ".0").data = s.data ++ ['.', '0'] := String.data_append s ".0"
  have hends : endsDotZero (s.data ++ ['.', '0']) = true := by
    simp [endsDotZero, List.reverse_append]
  have hrem : removeDotZero (s.data ++ ['.', '0']) = s.data := removeDotZero_digits s.data hdig
  have hdig2 : pyIsDigit s.data = true := by
    simp only [pyIsDigit, Bool.and_eq_true, Bool.not_eq_true']
    exact ⟨by simpa [List.isEmpty_iff] using hne, hdig⟩
  simp only [cleanNumStr, hdata, hends, hrem, hdig2, Bool.and_self, if_true]

/-- Witness for C10: `"120.0"` is rendered as `"120"`. -/
theorem clean_value_rendering_witness :
    clean_value (CellValue.strCell ("120" ++ ".0")) = "120" :=
  clean_value_rendering.2.2 "120" (by decide) (by decide)

/-- C4, counterexample: the claimed result `"31.03.2025,"` is wrong — the
pattern's optional tail consumes the trailing `" r.,"` including the comma,
so the comma is not preserved. -/
theorem normalize_dates_comma_counterexample :
    normalize_polish_dates "31 marca 2025 r.," ≠ "31.03.2025," := by decide

/-- C4, amended: `normalize_polish_dates` on `"31 marca 2025 r.,"` yields
`"31.03.2025"` — the date is rewritten to `DD.MM.YYYY` and the trailing
`" r.,"` punctuation is consumed by the match rather than left unchanged. -/
theorem normalize_dates_example :
    normalize_polish_dates "31 marca 2025 r.," = "31.03.2025" := by decide

/-! ### Basic facts about the Polish long-date matcher -/

lemma matchPolishDate_pw_true (l : List Char) : matchPolishDate true l = none := by
  simp [matchPolishDate]

lemma match_some_pw {pw : Bool} {l : List Char} {x : List Char × List Char}
    (h : matchPolishDate pw l = some x) : pw = false := by
  cases pw
  · rfl
  · rw [matchPolishDate_pw_true] at h
    exact absurd h (by simp)

lemma digit_not_space {c : Char} (h : c.isDigit = true) : isSpaceCh c = false := by
  cases hs : isSpaceCh c
  · rfl
  · rw [isSpaceCh_not_digit hs] at h
    exact absurd h (by simp)

lemma isWordChar_digit {c : Char} (h : c.isDigit = true) : isWordChar c = true := by
  simp [isWordChar, Char.isAlphanum, h]

lemma length_dropWhile_le (p : Char → Bool) (l : List Char) :
    (l.dropWhile p).length ≤ l.length := by
  induction l with
  | nil => simp
  | cons c cs ih =>
    rw [List.dropWhile_cons]
    split
    · exact Nat.le_succ_of_le ih
    · simp

lemma matchesCI_length {p l : List Char} (h : matchesCI p l = true) : p.length ≤ l.length := by
  induction p generalizing l with
  | nil => simp
  | cons a ps ih =>
    cases l with
    | nil => simp [matchesCI] at h
    | cons c cs =>
      simp only [matchesCI, Bool.and_eq_true] at h
      simpa using ih h.2

lemma matchesCI_eq_map {p l : List Char} (h : matchesCI p l = true) :
    p = (l.take p.length).map lowerPL := by
  induction p generalizing l with
  | nil => simp
  | cons a ps ih =>
    cases l with
    | nil => simp [matchesCI] at h
    | cons c cs =>
      simp only [matchesCI, Bool.and_eq_true, beq_iff_eq] at h
      simp only [List.length_cons, List.take_succ_cons, List.map_cons]
      exact List.cons_eq_cons.mpr ⟨h.1.symm, ih h.2⟩

lemma matchesCI_of_eq_map {p l : List Char} (hlen : p.length ≤ l.length)
    (h : p = (l.take p.length).map lowerPL) : matchesCI p l = true := by
  induction p generalizing l with
  | nil => rfl
  | cons a ps ih =>
    cases l with
    | nil => simp at hlen
    | cons c cs =>
      simp only [List.length_cons, List.take_succ_cons, List.map_cons,
        List.cons_eq_cons] at h
      simp only [matchesCI, Bool.and_eq_true, beq_iff_eq]
      exact ⟨h.1.symm, ih (by simpa using hlen) h.2⟩

lemma matchesCI_append_right {p l : List Char} (X : List Char)
    (h : matchesCI p l = true) (hlen : p.length = l.length) :
    matchesCI p (l ++ X) = true := by
  apply matchesCI_of_eq_map
  · simp [hlen]
  · rw [List.take_append_eq_append_take, ← hlen, Nat.sub_self, List.take_zero,
      List.append_nil, hlen, List.take_length]
    rw [matchesCI_eq_map h, hlen, List.take_length]

lemma tryMonthAux_some {tbl : List (List Char × List Char)} {l l2 mm : List Char}
    (h : tryMonthAux tbl l = some (mm, l2)) :
    ∃ name, (name, mm) ∈ tbl ∧ matchesCI name l = true ∧ l2 = l.drop name.length := by
  induction tbl with
  | nil => simp [tryMonthAux] at h
  | cons entry rest ih =>
    obtain ⟨name, m⟩ := entry
    simp only [tryMonthAux] at h
    split at h
    · next hm =>
      obtain ⟨rfl, rfl⟩ : m = mm ∧ l.drop name.length = l2 := by
        simpa using h
      exact ⟨name, by simp, hm, rfl⟩
    · obtain ⟨name', hmem, hci, hdrop⟩ := ih h
      exact ⟨name', by simp [hmem], hci, hdrop⟩

lemma monthsTable_name_len : ∀ p ∈ monthsTable, 4 ≤ p.1.length := by decide

lemma monthsTable_mm_shape : ∀ p ∈ monthsTable,
    p.2.length = 2 ∧ p.2.all Char.isDigit = true := by decide

lemma monthsTable_prefixFree : ∀ p ∈ monthsTable, ∀ q ∈ monthsTable,
    p.1 <+: q.1 → p.1 = q.1 := by decide

lemma monthsTable_head_ok : ∀ p ∈ monthsTable,
    p.1 ≠ [] ∧ isSpaceCh (p.1.headD 'x') = false := by decide

lemma monthsTable_no_dot : ∀ p ∈ monthsTable, ¬ ('.' ∈ p.1) := by decide

lemma lowerPL_space {c : Char} (h : isSpaceCh c = true) : lowerPL c = c := by
  simp only [isSpaceCh, Bool.or_eq_true, beq_iff_eq] at h
  rcases h with ((((rfl | rfl) | rfl) | rfl) | rfl) | rfl <;> decide

lemma span_spaces_exact {w X : List Char} (hw : ∀ c ∈ w, isSpaceCh c = true)
    (hX : ∀ x, X.head? = some x → isSpaceCh x = false) :
    (w ++ X).takeWhile isSpaceCh = w ∧ (w ++ X).dropWhile isSpaceCh = X := by
  induction w with
  | nil =>
    constructor
    · cases X with
      | nil => rfl
      | cons x xs => simp [List.takeWhile_cons, hX x rfl]
    · cases X with
      | nil => rfl
      | cons x xs => simp [List.dropWhile_cons, hX x rfl]
  | cons c w' ih =>
    have hc := hw c (by simp)
    have ih' := ih fun d hd => hw d (by simp [hd])
    constructor
    · simp [List.takeWhile_cons, hc, ih'.1]
    · simp [List.dropWhile_cons, hc, ih'.2]

lemma matchesCI_take {p l : List Char} (h : matchesCI p l = true) :
    matchesCI p (l.take p.length) = true := by
  apply matchesCI_of_eq_map
  · simp [List.length_take, matchesCI_length h]
  · rw [List.take_take]
    simpa using matchesCI_eq_map h

lemma length_match_le (m : List Char) (f : Char → Bool) :
    (match m with
     | r :: t => if f r = true then t else m
     | [] => m).length ≤ m.length := by
  cases m with
  | nil => simp
  | cons r t =>
    dsimp only
    split <;> simp

lemma afterDay_some {day l rep rest : List Char} (h : afterDay day l = some (rep, rest)) :
    ∃ w1 mon w2 y1 y2 y3 y4 l4 name mm,
      l = w1 ++ mon ++ w2 ++ (y1 :: y2 :: y3 :: y4 :: l4) ∧
      w1 ≠ [] ∧ (∀ c ∈ w1, isSpaceCh c = true) ∧
      (name, mm) ∈ monthsTable ∧ matchesCI name mon = true ∧ mon.length = name.length ∧
      w2 ≠ [] ∧ (∀ c ∈ w2, isSpaceCh c = true) ∧
      y1.isDigit = true ∧ y2.isDigit = true ∧ y3.isDigit = true ∧ y4.isDigit = true ∧
      rep = zfill2 day ++ '.' :: mm ++ '.' :: [y1, y2, y3, y4] ∧
      rest.length ≤ l4.length := by
  simp only [afterDay] at h
  split at h
  · exact absurd h (by simp)
  · next hw1 =>
    split at h
    · exact absurd h (by simp)
    · next mm l2 heq =>
      split at h
      · exact absurd h (by simp)
      · next hw2 =>
        split at h
        · next y1 y2 y3 y4 l4 heq3 =>
          split at h
          · next hdig =>
            simp only [Option.some.injEq, Prod.mk.injEq] at h
            obtain ⟨hrep, hrest⟩ := h
            obtain ⟨name, hmem, hci, hdrop⟩ := tryMonthAux_some heq
            simp only [Bool.and_eq_true] at hdig
            have e1 : l2.takeWhile isSpaceCh ++ (y1 :: y2 :: y3 :: y4 :: l4) = l2 := by
              rw [← heq3]
              exact List.takeWhile_append_dropWhile _ _
            have e2 : (l.dropWhile isSpaceCh).take name.length ++ l2 = l.dropWhile isSpaceCh := by
              rw [hdrop]
              exact List.take_append_drop _ _
            have e3 : l.takeWhile isSpaceCh ++ l.dropWhile isSpaceCh = l :=
              List.takeWhile_append_dropWhile _ _
            refine ⟨l.takeWhile isSpaceCh, (l.dropWhile isSpaceCh).take name.length,
              l2.takeWhile isSpaceCh, y1, y2, y3, y4, l4, name, mm, ?_, ?_, ?_, hmem, ?_,
              ?_, ?_, ?_, hdig.1.1.1, hdig.1.1.2, hdig.1.2, hdig.2, hrep.symm, ?_⟩
            · symm
              rw [List.append_assoc, List.append_assoc, e1, e2, e3]
            · simpa [List.isEmpty_iff] using hw1
            · intro c hc
              exact List.mem_takeWhile_imp hc
            · exact matchesCI_take hci
            · rw [List.length_take]
              exact Nat.min_eq_left (matchesCI_length hci)
            · simpa [List.isEmpty_iff] using hw2
            · intro c hc
              exact List.mem_takeWhile_imp hc
            · rw [← hrest]
              refine le_trans (length_match_le _ _) (le_trans (length_match_le _ _)
                (le_trans (length_match_le _ _) (length_dropWhile_le _ _)))
          · exact absurd h (by simp)
        · exact absurd h (by simp)

lemma match_some_afterDay {pw : Bool} {l : List Char} {r : List Char × List Char}
    (h : matchPolishDate pw l = some r) :
    ∃ day tail, l = day ++ tail ∧ (day.length = 1 ∨ day.length = 2) ∧
      day.all Char.isDigit = true ∧ afterDay day tail = some r := by
  have hpw := match_some_pw h
  subst hpw
  simp only [matchPolishDate, Bool.false_eq_true, if_false] at h
  split at h
  · exact absurd h (by simp)
  · next c1 rest1 =>
    split at h
    · next hc1 =>
      split at h
      · next c2 rest2 =>
        split at h
        · next hc2 =>
          split at h
          · next r' heq =>
            obtain rfl : r' = r := by simpa using h
            exact ⟨[c1, c2], rest2, rfl, Or.inr rfl, by simp [hc1, hc2], heq⟩
          · exact ⟨[c1], c2 :: rest2, rfl, Or.inl rfl, by simp [hc1], h⟩
        · exact ⟨[c1], c2 :: rest2, rfl, Or.inl rfl, by simp [hc1], h⟩
      · exact ⟨[c1], [], rfl, Or.inl rfl, by simp [hc1], h⟩
    · exact absurd h (by simp)

lemma match_some_lt {pw : Bool} {l rep rest : List Char}
    (h : matchPolishDate pw l = some (rep, rest)) : rest.length < l.length := by
  obtain ⟨day, tail, rfl, hday, _, hafter⟩ := match_some_afterDay h
  obtain ⟨w1, mon, w2, y1, y2, y3, y4, l4, name, mm, htail, hw1, _, _, _, _, hw2, _,
    _, _, _, _, _, hlen⟩ := afterDay_some hafter
  have h1 : 1 ≤ w1.length := List.length_pos.mpr hw1
  have h2 : 1 ≤ w2.length := List.length_pos.mpr hw2
  have h3 : 1 ≤ day.length := by rcases hday with h | h <;> omega
  have h4 : tail.length = w1.length + mon.length + w2.length + (4 + l4.length) := by
    rw [htail]
    simp only [List.length_append, List.length_cons]
    omega
  have h5 : (day ++ tail).length = day.length + tail.length := List.length_append _ _
  omega

lemma match_some_shape {pw : Bool} {l rep rest : List Char}
    (h : matchPolishDate pw l = some (rep, rest)) : RepShape rep := by
  obtain ⟨day, tail, rfl, hday, hdig, hafter⟩ := match_some_afterDay h
  obtain ⟨w1, mon, w2, y1, y2, y3, y4, l4, name, mm, htail, hw1, hsw1, hmem, hci, hlen,
    hw2, hsw2, hy1, hy2, hy3, hy4, hrep, hrest⟩ := afterDay_some hafter
  obtain ⟨m1, m2, hmmeq, hm1, hm2⟩ :
      ∃ m1 m2, mm = [m1, m2] ∧ m1.isDigit = true ∧ m2.isDigit = true := by
    obtain ⟨hlen2, hall⟩ := monthsTable_mm_shape _ hmem
    match mm, hlen2 with
    | [a, b], _ =>
      simp only [List.all_cons, List.all_nil, Bool.and_eq_true, Bool.and_true] at hall
      exact ⟨a, b, rfl, hall.1, hall.2⟩
  rcases hday with h1 | h2
  · match day, h1 with
    | [c], _ =>
      have hc : c.isDigit = true := by simpa using hdig
      refine ⟨'0', c, m1, m2, y1, y2, y3, y4, ?_, by decide, hc, hm1, hm2,
        hy1, hy2, hy3, hy4⟩
      rw [hrep, hmmeq]
      rfl
  · match day, h2 with
    | [c1, c2], _ =>
      have hc : c1.isDigit = true ∧ c2.isDigit = true := by simpa using hdig
      refine ⟨c1, c2, m1, m2, y1, y2, y3, y4, ?_, hc.1, hc.2, hm1, hm2,
        hy1, hy2, hy3, hy4⟩
      rw [hrep, hmmeq]
      rfl

lemma subFuel_congr : ∀ (n m : Nat) (pw : Bool) (l : List Char),
    l.length ≤ n → l.length ≤ m → subFuel n pw l = subFuel m pw l := by
  intro n
  induction n with
  | zero =>
    intro m pw l hn hm
    have : l = [] := List.length_eq_zero.mp (Nat.le_zero.mp hn)
    subst this
    cases m <;> rfl
  | succ n ih =>
    intro m pw l hn hm
    cases l with
    | nil => cases m <;> rfl
    | cons c cs =>
      cases m with
      | zero => simp at hm
      | succ m' =>
        cases hmatch : matchPolishDate pw (c :: cs) with
        | some pr =>
          obtain ⟨rep, rest⟩ := pr
          have hlt := match_some_lt hmatch
          simp only [List.length_cons] at hn hm hlt
          simp only [subFuel, hmatch]
          rw [ih m' (resumeW pw (c :: cs) rest) rest (by omega) (by omega)]
        | none =>
          simp only [List.length_cons] at hn hm
          simp only [subFuel, hmatch]
          rw [ih m' (isWordChar c) cs (by omega) (by omega)]

lemma subRun_cons_some {pw : Bool} {c : Char} {cs rep rest : List Char}
    (h : matchPolishDate pw (c :: cs) = some (rep, rest)) :
    subRun pw (c :: cs) = rep ++ subRun (resumeW pw (c :: cs) rest) rest := by
  have hlt := match_some_lt h
  simp only [List.length_cons] at hlt
  simp only [subRun, List.length_cons, subFuel, h]
  congr 1
  show subFuel (cs.length + 1) (resumeW pw (c :: cs) rest) rest =
    subFuel (rest.length + 1) (resumeW pw (c :: cs) rest) rest
  exact subFuel_congr _ _ _ _ (by omega) (by omega)

lemma subRun_cons_none {pw : Bool} {c : Char} {cs : List Char}
    (h : matchPolishDate pw (c :: cs) = none) :
    subRun pw (c :: cs) = c :: subRun (isWordChar c) cs := by
  simp only [subRun, List.length_cons, subFuel, h]

lemma match_some_len11 {pw : Bool} {l rep rest : List Char}
    (h : matchPolishDate pw l = some (rep, rest)) : rest.length + 11 ≤ l.length := by
  obtain ⟨day, tail, rfl, hday, _, hafter⟩ := match_some_afterDay h
  obtain ⟨w1, mon, w2, y1, y2, y3, y4, l4, name, mm, htail, hw1, _, hmem, hci, hlen,
    hw2, _, _, _, _, _, _, hrlen⟩ := afterDay_some hafter
  have h1 : 1 ≤ w1.length := List.length_pos.mpr hw1
  have h2 : 1 ≤ w2.length := List.length_pos.mpr hw2
  have h3 : 1 ≤ day.length := by rcases hday with h | h <;> omega
  have h6 : 4 ≤ name.length := by simpa using monthsTable_name_len _ hmem
  have h4 : tail.length = w1.length + mon.length + w2.length + (4 + l4.length) := by
    rw [htail]
    simp only [List.length_append, List.length_cons]
    omega
  have h5 : (day ++ tail).length = day.length + tail.length := List.length_append _ _
  omega

lemma subRun_length_le : ∀ (n : Nat) (l : List Char), l.length ≤ n → ∀ pw : Bool,
    (subRun pw l).length ≤ l.length := by
  intro n
  induction n with
  | zero =>
    intro l hn pw
    have : l = [] := List.length_eq_zero.mp (Nat.le_zero.mp hn)
    subst this
    simp [subRun, subFuel]
  | succ n ih =>
    intro l hn pw
    cases l with
    | nil => simp [subRun, subFuel]
    | cons c cs =>
      cases hm : matchPolishDate pw (c :: cs) with
      | some pr =>
        obtain ⟨rep, rest⟩ := pr
        rw [subRun_cons_some hm]
        have h11 := match_some_len11 hm
        have hrep10 : rep.length = 10 := by
          obtain ⟨d1, d2, m1, m2, z1, z2, z3, z4, hrepeq, _⟩ := match_some_shape hm
          rw [hrepeq]
          rfl
        have hr := ih rest (by simp only [List.length_cons] at hn h11; omega)
          (resumeW pw (c :: cs) rest)
        simp only [List.length_append, List.length_cons] at h11 ⊢
        omega
      | none =>
        rw [subRun_cons_none hm]
        have hr := ih cs (by simpa using hn) (isWordChar c)
        simp only [List.length_cons]
        omega

lemma subRun_true_of_false {l : List Char} (h : subRun false l = l) : subRun true l = l := by
  cases l with
  | nil => rfl
  | cons c cs =>
    cases hm : matchPolishDate false (c :: cs) with
    | some pr =>
      obtain ⟨rep, rest⟩ := pr
      exfalso
      have heq := subRun_cons_some hm
      rw [h] at heq
      have hlen := congrArg List.length heq
      have hrep10 : rep.length = 10 := by
        obtain ⟨d1, d2, m1, m2, z1, z2, z3, z4, hrepeq, _⟩ := match_some_shape hm
        rw [hrepeq]
        rfl
      have h11 := match_some_len11 hm
      have hle := subRun_length_le rest.length rest le_rfl (resumeW false (c :: cs) rest)
      simp only [List.length_append, List.length_cons] at hlen h11
      omega
    | none =>
      rw [subRun_cons_none (matchPolishDate_pw_true (c :: cs))]
      rw [subRun_cons_none hm] at h
      exact h

lemma afterDay_head_nospace {x : Char} {l day : List Char} (hx : isSpaceCh x = false) :
    afterDay day (x :: l) = none := by
  simp [afterDay, List.takeWhile_cons, hx]

lemma matchFail3 {d e : Char} (hd : isSpaceCh d = false) (he : isSpaceCh e = false)
    (pw : Bool) (c : Char) (l : List Char) :
    matchPolishDate pw (c :: d :: e :: l) = none := by
  cases pw
  · have h1 : afterDay [c, d] (e :: l) = none := afterDay_head_nospace he
    have h2 : afterDay [c] (d :: e :: l) = none := afterDay_head_nospace hd
    simp only [matchPolishDate, Bool.false_eq_true, if_false]
    by_cases hc : c.isDigit = true
    · simp [hc, h1, h2]
    · simp [hc]
  · exact matchPolishDate_pw_true _

lemma subRun_rep_append {rep : List Char} (hshape : RepShape rep) (pw : Bool) (X : List Char) :
    subRun pw (rep ++ X) = rep ++ subRun true X := by
  obtain ⟨d1, d2, m1, m2, y1, y2, y3, y4, rfl, hd1, hd2, hm1, hm2, hy1, hy2, hy3, hy4⟩ :=
    hshape
  have nsdot : isSpaceCh '.' = false := by decide
  have wdot : isWordChar '.' = false := by decide
  show subRun pw (d1 :: d2 :: '.' :: m1 :: m2 :: '.' :: y1 :: y2 :: y3 :: y4 :: X) = _
  rw [subRun_cons_none (matchFail3 (digit_not_space hd2) nsdot pw d1 _),
    isWordChar_digit hd1,
    subRun_cons_none (matchPolishDate_pw_true _),
    isWordChar_digit hd2,
    subRun_cons_none (matchPolishDate_pw_true _),
    wdot,
    subRun_cons_none (matchFail3 (digit_not_space hm2) nsdot false m1 _),
    isWordChar_digit hm1,
    subRun_cons_none (matchPolishDate_pw_true _),
    isWordChar_digit hm2,
    subRun_cons_none (matchPolishDate_pw_true _),
    wdot,
    subRun_cons_none (matchFail3 (digit_not_space hy2) (digit_not_space hy3) false y1 _),
    isWordChar_digit hy1,
    subRun_cons_none (matchPolishDate_pw_true _),
    isWordChar_digit hy2,
    subRun_cons_none (matchPolishDate_pw_true _),
    isWordChar_digit hy3,
    subRun_cons_none (matchPolishDate_pw_true _),
    isWordChar_digit hy4]
  rfl

lemma prevW_cons (c : Char) (pre : List Char) (pw : Bool) :
    prevW (c :: pre) pw = prevW pre (isWordChar c) := by
  cases pre with
  | nil => rfl
  | cons d pre' =>
    simp only [prevW, List.getLast?_cons_cons]
    rcases hlast : (d :: pre').getLast? with _ | x
    · exact absurd hlast (by simp)
    · rfl

lemma subRun_structure : ∀ (n : Nat) (l : List Char) (pw : Bool), l.length ≤ n →
    subRun pw l = l ∨
    ∃ pre suf rep pw2 rest, l = pre ++ suf ∧
      subRun pw l = pre ++ (rep ++ subRun pw2 rest) ∧
      matchPolishDate (prevW pre pw) suf = some (rep, rest) := by
  intro n
  induction n with
  | zero =>
    intro l pw hn
    have : l = [] := List.length_eq_zero.mp (Nat.le_zero.mp hn)
    subst this
    exact Or.inl rfl
  | succ n ih =>
    intro l pw hn
    cases l with
    | nil => exact Or.inl rfl
    | cons c cs =>
      cases hmatch : matchPolishDate pw (c :: cs) with
      | some pr =>
        obtain ⟨rep, rest⟩ := pr
        refine Or.inr ⟨[], c :: cs, rep, resumeW pw (c :: cs) rest, rest, rfl, ?_, hmatch⟩
        rw [subRun_cons_some hmatch]
        rfl
      | none =>
        have hcs : cs.length ≤ n := by simpa using hn
        rcases ih cs (isWordChar c) hcs with
          hl | ⟨pre, suf, rep, pw2, rest, hsplit, hsub, hm⟩
        · left
          rw [subRun_cons_none hmatch, hl]
        · right
          refine ⟨c :: pre, suf, rep, pw2, rest, by rw [List.cons_append, ← hsplit], ?_, ?_⟩
          · rw [subRun_cons_none hmatch, hsub]
            rfl
          · rw [prevW_cons]
            exact hm

lemma match_some_core {l rep rest : List Char}
    (h : matchPolishDate false l = some (rep, rest)) : ∃ k, CoreAt l k := by
  obtain ⟨day, tail0, rfl, hday, hdigs, hafter⟩ := match_some_afterDay h
  obtain ⟨w1, mon, w2, y1, y2, y3, y4, l4, name, mm, htail, hw1, hsw1, hmem, hci, hlen,
    hw2, hsw2, hy1, hy2, hy3, hy4, _, _⟩ := afterDay_some hafter
  refine ⟨day.length + w1.length + mon.length + w2.length + 4,
    day, w1, mon, w2, [y1, y2, y3, y4], l4, name, mm, ?_, rfl, hday, hdigs, hw1, ?_,
    hmem, hci, hlen, hw2, ?_, rfl, ?_⟩
  · rw [htail]
    simp [List.append_assoc]
  · simp only [List.all_eq_true]
    exact hsw1
  · simp only [List.all_eq_true]
    exact hsw2
  · simp [hy1, hy2, hy3, hy4]

lemma coreAt_core_take {l : List Char} {k : Nat}
    {day w1 mon w2 ys tail : List Char}
    (hl : l = day ++ w1 ++ mon ++ w2 ++ ys ++ tail)
    (hk : k = day.length + w1.length + mon.length + w2.length + 4)
    (hyslen : ys.length = 4) :
    l.take k = day ++ w1 ++ mon ++ w2 ++ ys := by
  have hcorelen : (day ++ w1 ++ mon ++ w2 ++ ys).length = k := by
    simp [List.length_append, hk, hyslen]
    omega
  rw [hl, show day ++ w1 ++ mon ++ w2 ++ ys ++ tail =
      (day ++ w1 ++ mon ++ w2 ++ ys) ++ tail from by simp [List.append_assoc],
    ← hcorelen, List.take_left]

lemma core_transfer {l l2 : List Char} {k : Nat} (hcore : CoreAt l k)
    (heq : l.take k = l2.take k) : CoreAt l2 k := by
  obtain ⟨day, w1, mon, w2, ys, tail, name, mm, hl, hk, hday, hdigs, hw1ne, hw1sp,
    hmem, hci, hlen, hw2ne, hw2sp, hyslen, hysdig⟩ := hcore
  have htake := coreAt_core_take hl hk hyslen
  refine ⟨day, w1, mon, w2, ys, l2.drop k, name, mm, ?_, hk, hday, hdigs, hw1ne, hw1sp,
    hmem, hci, hlen, hw2ne, hw2sp, hyslen, hysdig⟩
  rw [show day ++ w1 ++ mon ++ w2 ++ ys ++ l2.drop k =
      (day ++ w1 ++ mon ++ w2 ++ ys) ++ l2.drop k from by simp [List.append_assoc],
    ← htake, heq, List.take_append_drop]

lemma coreAt_k_ge {l : List Char} {k : Nat} (h : CoreAt l k) : 11 ≤ k := by
  obtain ⟨day, w1, mon, w2, ys, tail, name, mm, hl, hk, hday, hdigs, hw1ne, hw1sp,
    hmem, hci, hlen, hw2ne, hw2sp, hyslen, hysdig⟩ := h
  have h1 : 1 ≤ w1.length := List.length_pos.mpr hw1ne
  have h2 : 1 ≤ w2.length := List.length_pos.mpr hw2ne
  have h3 : 4 ≤ name.length := monthsTable_name_len _ hmem
  have h4 : 1 ≤ day.length := by rcases hday with h | h <;> omega
  omega

lemma core_no_dot {l : List Char} {k : Nat} (h : CoreAt l k) : '.' ∉ l.take k := by
  obtain ⟨day, w1, mon, w2, ys, tail, name, mm, hl, hk, hday, hdigs, hw1ne, hw1sp,
    hmem, hci, hlen, hw2ne, hw2sp, hyslen, hysdig⟩ := h
  rw [coreAt_core_take hl hk hyslen]
  intro hmem'
  simp only [List.mem_append] at hmem'
  have hnamemap : name = mon.map lowerPL := by
    have := matchesCI_eq_map hci
    rwa [← hlen, List.take_length] at this
  rcases hmem' with ((((hd | hd) | hd) | hd) | hd)
  · have := List.all_eq_true.mp hdigs _ hd
    exact absurd this (by decide)
  · have := List.all_eq_true.mp hw1sp _ hd
    exact absurd this (by decide)
  · have : lowerPL '.' ∈ name := by
      rw [hnamemap]
      exact List.mem_map_of_mem lowerPL hd
    rw [show lowerPL '.' = '.' from by decide] at this
    exact monthsTable_no_dot _ hmem this
  · have := List.all_eq_true.mp hw2sp _ hd
    exact absurd this (by decide)
  · have := List.all_eq_true.mp hysdig _ hd
    exact absurd this (by decide)

lemma matchesCI_head_nospace {name mm mon : List Char}
    (hmem : (name, mm) ∈ monthsTable) (hci : matchesCI name mon = true)
    (hlen : mon.length = name.length) :
    ∀ x, mon.head? = some x → isSpaceCh x = false := by
  intro x hx
  obtain ⟨hne, hhead⟩ := monthsTable_head_ok _ hmem
  cases mon with
  | nil => simp at hx
  | cons x0 mon' =>
    have hxx : x0 = x := by simpa using hx
    subst hxx
    cases name with
    | nil => simp at hlen
    | cons nm0 name' =>
      simp only [matchesCI, Bool.and_eq_true, beq_iff_eq] at hci
      by_contra hsp
      rw [Bool.not_eq_false] at hsp
      have hfix : lowerPL x0 = x0 := lowerPL_space hsp
      have h0 : nm0 = x0 := by rw [← hci.1, hfix]
      simp only [List.headD_cons] at hhead
      rw [h0] at hhead
      exact absurd hsp (by simp [hhead])

lemma tryMonthAux_mem_isSome {l : List Char} :
    ∀ tbl : List (List Char × List Char), (∃ p ∈ tbl, matchesCI p.1 l = true) →
      ∃ mm2 l2, tryMonthAux tbl l = some (mm2, l2) := by
  intro tbl
  induction tbl with
  | nil => rintro ⟨p, hp, _⟩; simp at hp
  | cons entry rest ih =>
    rintro ⟨p, hp, hpci⟩
    obtain ⟨name, m⟩ := entry
    by_cases hm : matchesCI name l = true
    · exact ⟨m, l.drop name.length, by simp [tryMonthAux, hm]⟩
    · rcases List.mem_cons.mp hp with rfl | hp'
      · exact absurd hpci hm
      · obtain ⟨mm2, l2, h2⟩ := ih ⟨p, hp', hpci⟩
        exact ⟨mm2, l2, by simp [tryMonthAux, hm, h2]⟩

lemma matchesCI_same_name {name name2 l : List Char}
    (h1 : matchesCI name l = true) (h2 : matchesCI name2 l = true)
    (hm1 : ∃ m, (name, m) ∈ monthsTable) (hm2 : ∃ m, (name2, m) ∈ monthsTable) :
    name = name2 := by
  obtain ⟨m, hmem1⟩ := hm1
  obtain ⟨m2, hmem2⟩ := hm2
  have e1 := matchesCI_eq_map h1
  have e2 := matchesCI_eq_map h2
  rcases Nat.le_total name.length name2.length with hle | hle
  · have hpre : name <+: name2 := by
      rw [e1, e2]
      refine List.IsPrefix.map _ ?_
      rw [show l.take name.length = (l.take name2.length).take name.length from by
        rw [List.take_take, Nat.min_eq_left hle]]
      exact List.take_prefix _ _
    exact monthsTable_prefixFree _ hmem1 _ hmem2 hpre
  · have hpre : name2 <+: name := by
      rw [e1, e2]
      refine List.IsPrefix.map _ ?_
      rw [show l.take name2.length = (l.take name.length).take name2.length from by
        rw [List.take_take, Nat.min_eq_left hle]]
      exact List.take_prefix _ _
    exact (monthsTable_prefixFree _ hmem2 _ hmem1 hpre).symm

lemma tryMonth_complete {name mm l : List Char}
    (hmem : (name, mm) ∈ monthsTable) (hci : matchesCI name l = true) :
    ∃ mm2, tryMonth l = some (mm2, l.drop name.length) := by
  obtain ⟨mm2, l2, h2⟩ := tryMonthAux_mem_isSome monthsTable ⟨(name, mm), hmem, hci⟩
  obtain ⟨name2, hmem2, hci2, hdrop⟩ := tryMonthAux_some h2
  have : name2 = name :=
    matchesCI_same_name hci2 hci ⟨mm2, hmem2⟩ ⟨mm, hmem⟩
  subst this
  exact ⟨mm2, by rw [tryMonth, h2, hdrop]⟩

lemma isEmpty_false_of_ne_nil {l : List Char} (h : l ≠ []) : l.isEmpty = false := by
  cases l with
  | nil => exact absurd rfl h
  | cons c cs => rfl

lemma afterDay_complete (day tail : List Char) {w1 mon w2 name mm : List Char}
    {y1 y2 y3 y4 : Char}
    (hw1ne : w1 ≠ []) (hw1sp : ∀ c ∈ w1, isSpaceCh c = true)
    (hmem : (name, mm) ∈ monthsTable) (hci : matchesCI name mon = true)
    (hlen : mon.length = name.length)
    (hw2ne : w2 ≠ []) (hw2sp : ∀ c ∈ w2, isSpaceCh c = true)
    (hy1 : y1.isDigit = true) (hy2 : y2.isDigit = true)
    (hy3 : y3.isDigit = true) (hy4 : y4.isDigit = true) :
    (afterDay day (w1 ++ (mon ++ (w2 ++ (y1 :: y2 :: y3 :: y4 :: tail))))).isSome = true := by
  have hmonne : mon ≠ [] := by
    intro hh
    have h4 : 4 ≤ name.length := by simpa using monthsTable_name_len _ hmem
    rw [hh] at hlen
    simp only [List.length_nil] at hlen
    omega
  have hmonhead : ∀ x, (mon ++ (w2 ++ (y1 :: y2 :: y3 :: y4 :: tail))).head? = some x →
      isSpaceCh x = false := by
    intro x hx
    cases mon with
    | nil => exact absurd rfl hmonne
    | cons m0 mon' =>
      have hm0 : m0 = x := by simpa using hx
      rw [← hm0]
      exact matchesCI_head_nospace hmem hci hlen m0 (by simp)
  obtain ⟨ht1, hd1⟩ := span_spaces_exact hw1sp hmonhead
  have hciZ : matchesCI name (mon ++ (w2 ++ (y1 :: y2 :: y3 :: y4 :: tail))) = true :=
    matchesCI_append_right _ hci hlen.symm
  obtain ⟨mm2, htm⟩ := tryMonth_complete hmem hciZ
  have hdropZ : (mon ++ (w2 ++ (y1 :: y2 :: y3 :: y4 :: tail))).drop name.length =
      w2 ++ (y1 :: y2 :: y3 :: y4 :: tail) := by
    rw [← hlen]
    exact List.drop_left _ _
  have hyhead : ∀ x, (y1 :: y2 :: y3 :: y4 :: tail).head? = some x →
      isSpaceCh x = false := by
    intro x hx
    have hxy : y1 = x := by simpa using hx
    rw [← hxy]
    exact digit_not_space hy1
  obtain ⟨ht2, hd2⟩ := span_spaces_exact hw2sp hyhead
  simp only [afterDay, ht1, hd1, htm, hdropZ, ht2, hd2,
    isEmpty_false_of_ne_nil hw1ne, isEmpty_false_of_ne_nil hw2ne,
    Bool.false_eq_true, if_false, hy1, hy2, hy3, hy4, Bool.and_self, if_true,
    Option.isSome_some]

lemma core_match {l : List Char} {k : Nat} (hcore : CoreAt l k) :
    (matchPolishDate false l).isSome = true := by
  obtain ⟨day, w1, mon, w2, ys, tail, name, mm, hl, hk, hday, hdigs, hw1ne, hw1sp,
    hmem, hci, hlen, hw2ne, hw2sp, hyslen, hysdig⟩ := hcore
  obtain ⟨y1, y2, y3, y4, rfl⟩ : ∃ y1 y2 y3 y4, ys = [y1, y2, y3, y4] := by
    match ys, hyslen with
    | [a, b, c, d], _ => exact ⟨a, b, c, d, rfl⟩
  simp only [List.all_cons, List.all_nil, Bool.and_eq_true, Bool.and_true] at hysdig
  obtain ⟨hy1, hy2, hy3, hy4⟩ := hysdig
  have hw1sp' : ∀ c ∈ w1, isSpaceCh c = true := List.all_eq_true.mp hw1sp
  have hw2sp' : ∀ c ∈ w2, isSpaceCh c = true := List.all_eq_true.mp hw2sp
  have hT : l = day ++ (w1 ++ (mon ++ (w2 ++ (y1 :: y2 :: y3 :: y4 :: tail)))) := by
    rw [hl]
    simp [List.append_assoc]
  have hafter : (afterDay day (w1 ++ (mon ++ (w2 ++ (y1 :: y2 :: y3 :: y4 :: tail))))).isSome
      = true :=
    afterDay_complete day tail hw1ne hw1sp' hmem hci hlen hw2ne hw2sp' hy1 hy2 hy3 hy4
  obtain ⟨s0, w1', rfl⟩ : ∃ s0 w1', w1 = s0 :: w1' := by
    cases w1 with
    | nil => exact absurd rfl hw1ne
    | cons a b => exact ⟨a, b, rfl⟩
  have hs0 : isSpaceCh s0 = true := hw1sp' s0 (by simp)
  have hs0d : s0.isDigit = false := isSpaceCh_not_digit hs0
  rcases hday with hd1 | hd2
  · obtain ⟨c, rfl⟩ : ∃ c, day = [c] := by
      match day, hd1 with
      | [c], _ => exact ⟨c, rfl⟩
    have hc : c.isDigit = true := by simpa using hdigs
    rw [hT]
    simp only [List.cons_append, List.nil_append, matchPolishDate, Bool.false_eq_true,
      if_false, hc, if_true, hs0d, Bool.false_eq_true]
    exact hafter
  · obtain ⟨c1, c2, rfl⟩ : ∃ c1 c2, day = [c1, c2] := by
      match day, hd2 with
      | [c1, c2], _ => exact ⟨c1, c2, rfl⟩
    have hc : c1.isDigit = true ∧ c2.isDigit = true := by simpa using hdigs
    rw [hT]
    simp only [List.cons_append, List.nil_append, matchPolishDate, Bool.false_eq_true,
      if_false, hc.1, hc.2, if_true]
    obtain ⟨pr, hpr⟩ := Option.isSome_iff_exists.mp hafter
    rw [show afterDay [c1, c2] (s0 :: (w1' ++ (mon ++ (w2 ++ (y1 :: y2 :: y3 :: y4 :: tail)))))
        = some pr from hpr]
    rfl

lemma match_none_preserved (pw : Bool) (c : Char) (cs : List Char)
    (h : matchPolishDate pw (c :: cs) = none) :
    matchPolishDate pw (c :: subRun (isWordChar c) cs) = none := by
  cases pw with
  | true => exact matchPolishDate_pw_true _
  | false =>
    by_contra hne
    have hsome : (matchPolishDate false (c :: subRun (isWordChar c) cs)).isSome = true := by
      cases hmm : matchPolishDate false (c :: subRun (isWordChar c) cs) with
      | none => exact absurd hmm hne
      | some pr => rfl
    obtain ⟨pr, hpr⟩ := Option.isSome_iff_exists.mp hsome
    obtain ⟨rep2, rest2⟩ := pr
    obtain ⟨k, hcore⟩ := match_some_core hpr
    have hk11 := coreAt_k_ge hcore
    rcases subRun_structure cs.length cs (isWordChar c) le_rfl with
      hY | ⟨pre, suf, rep, pw2, rest, hsplit, hsub, hm⟩
    · rw [hY] at hpr
      rw [h] at hpr
      exact absurd hpr (by simp)
    · have hpw2 : prevW pre (isWordChar c) = false := match_some_pw hm
      obtain ⟨d1, d2, m1, m2, z1, z2, z3, z4, hrepeq, hd1, hd2, _, _, _, _, _, _⟩ :=
        match_some_shape hm
      have hreplen : rep.length = 10 := by rw [hrepeq]; rfl
      rcases Nat.lt_or_ge k (pre.length + 2) with hcase1 | hge
      · have htk : (c :: subRun (isWordChar c) cs).take k = (c :: cs).take k := by
          rw [hsub, hsplit,
            show c :: (pre ++ (rep ++ subRun pw2 rest)) =
              (c :: pre) ++ (rep ++ subRun pw2 rest) from rfl,
            show c :: (pre ++ suf) = (c :: pre) ++ suf from rfl,
            List.take_append_of_le_length (by simp only [List.length_cons]; omega),
            List.take_append_of_le_length (by simp only [List.length_cons]; omega)]
        have hcore2 := core_transfer hcore htk
        have hsome2 := core_match hcore2
        rw [h] at hsome2
        exact absurd hsome2 (by simp)
      · rcases Nat.lt_or_ge k (pre.length + 4) with hcase2 | hcase3
        · have hprene : pre ≠ [] := by
            have h8 : 8 ≤ pre.length := by omega
            intro hh
            rw [hh] at h8
            simp at h8
          obtain ⟨day, w1, mon, w2, ys, tail, name, mmx, hl2, hk2, hday, hdigs, hw1ne,
            hw1sp, hmem, hci2, hlen2, hw2ne, hw2sp, hyslen, hysdig⟩ := hcore
          have htake := coreAt_core_take hl2 hk2 hyslen
          have hjle : k - (c :: pre).length ≤ rep.length := by
            simp only [List.length_cons]
            omega
          have htake2 : (c :: subRun (isWordChar c) cs).take k =
              (c :: pre) ++ rep.take (k - (c :: pre).length) := by
            rw [hsub,
              show c :: (pre ++ (rep ++ subRun pw2 rest)) =
                (c :: pre) ++ (rep ++ subRun pw2 rest) from rfl,
              List.take_append_eq_append_take,
              List.take_of_length_le (by simp only [List.length_cons]; omega),
              List.take_append_of_le_length hjle]
          have hEq2 : (day ++ w1 ++ mon ++ w2) ++ ys =
              (c :: pre) ++ rep.take (k - (c :: pre).length) := by
            rw [show (day ++ w1 ++ mon ++ w2) ++ ys = day ++ w1 ++ mon ++ w2 ++ ys from by
              simp [List.append_assoc], ← htake, htake2]
          have hjlen : (rep.take (k - (c :: pre).length)).length ≤ 2 := by
            simp only [List.length_take, List.length_cons]
            omega
          rcases List.append_eq_append_iff.mp hEq2 with ⟨a2, ha2, hys⟩ | ⟨c2x, hc2, hcj⟩
          · have ha2len : 2 ≤ a2.length := by
              have hl4 := congrArg List.length hys
              rw [hyslen, List.length_append] at hl4
              omega
            have ha2ne : a2 ≠ [] := by
              intro hh
              rw [hh] at ha2len
              simp at ha2len
            obtain ⟨x, hx⟩ : ∃ x, a2.getLast? = some x := by
              cases hxx : a2.getLast? with
              | none =>
                rw [List.getLast?_eq_none_iff] at hxx
                exact absurd hxx ha2ne
              | some x => exact ⟨x, rfl⟩
            have hxys : x ∈ ys := by
              rw [hys]
              exact List.mem_append_left _ (List.mem_of_mem_getLast? hx)
            have hxdig : x.isDigit = true := List.all_eq_true.mp hysdig x hxys
            have hlastcp : (c :: pre).getLast? = some x := by
              rw [ha2, List.getLast?_append, hx]
              rfl
            obtain ⟨p0, pre'', rfl⟩ : ∃ p0 pre'', pre = p0 :: pre'' := by
              cases pre with
              | nil => exact absurd rfl hprene
              | cons a b => exact ⟨a, b, rfl⟩
            rw [List.getLast?_cons_cons] at hlastcp
            simp only [prevW, hlastcp] at hpw2
            rw [isWordChar_digit hxdig] at hpw2
            exact absurd hpw2 (by simp)
          · have hl5 := congrArg List.length hcj
            rw [List.length_append, hyslen] at hl5
            omega
        · have hdot : '.' ∈ (c :: subRun (isWordChar c) cs).take k := by
            rw [hsub,
              show c :: (pre ++ (rep ++ subRun pw2 rest)) =
                (c :: pre) ++ (rep ++ subRun pw2 rest) from rfl,
              List.take_append_eq_append_take,
              List.take_of_length_le (by simp only [List.length_cons]; omega)]
            apply List.mem_append_right
            rw [hrepeq]
            obtain ⟨m, hmj⟩ : ∃ m, k - (c :: pre).length = m + 3 :=
              ⟨k - (c :: pre).length - 3, by simp only [List.length_cons]; omega⟩
            rw [hmj]
            simp
          exact absurd hdot (core_no_dot hcore)

lemma subRun_idem : ∀ (n : Nat) (l : List Char), l.length ≤ n → ∀ pw : Bool,
    subRun pw (subRun pw l) = subRun pw l := by
  intro n
  induction n with
  | zero =>
    intro l hn pw
    have : l = [] := List.length_eq_zero.mp (Nat.le_zero.mp hn)
    subst this
    rfl
  | succ n ih =>
    intro l hn pw
    cases l with
    | nil => rfl
    | cons c cs =>
      cases hmatch : matchPolishDate pw (c :: cs) with
      | some pr =>
        obtain ⟨rep, rest⟩ := pr
        have hlt := match_some_lt hmatch
        simp only [List.length_cons] at hn hlt
        rw [subRun_cons_some hmatch,
          subRun_rep_append (match_some_shape hmatch) pw
            (subRun (resumeW pw (c :: cs) rest) rest)]
        have hIH := ih rest (by omega) (resumeW pw (c :: cs) rest)
        cases hpw : resumeW pw (c :: cs) rest with
        | false =>
          rw [hpw] at hIH
          rw [subRun_true_of_false hIH]
        | true =>
          rw [hpw] at hIH
          rw [hIH]
      | none =>
        rw [subRun_cons_none hmatch,
          subRun_cons_none (match_none_preserved pw c cs hmatch),
          ih cs (by simpa using hn) (isWordChar c)]

/-- C5: the Polish long-date normalizer is idempotent — applying it twice to
any string yields the same result as applying it once. -/
theorem normalize_polish_dates_idem (s : String) :
    normalize_polish_dates (normalize_polish_dates s) = normalize_polish_dates s := by
  simp only [normalize_polish_dates]
  exact congrArg String.mk (subRun_idem s.data.length s.data le_rfl false)
